import Mathlib

/-!
Shallow embedding of `src/cassandraengine/models.py` (StartTheShift/cqlengine).

The repository's `columns.py`, `exceptions.py` and `manager.py` are not under
`src/`; the Column capability, the `ModelException` payload, the `UUID` column
and the Manager capability are modelled from the spec where noted.  Everything
else is translated from `models.py`.

Python dictionaries are embedded as association lists `List (String × α)`:
the list order is the dict's iteration order (for `OrderedDict` this is
insertion order; for the plain `attrs` dict of a Python 2 class body we take
the iteration order as the input order of the embedding).  Python attribute
assignment on an instance is `odInsert` (replace in place if the key exists,
else append), matching `OrderedDict.__setitem__` / dict update semantics.
Python `None` is `PyVal.none`.

Column accessors produced by `get_property` implement plain attribute access
on the instance's storage; they are represented directly by `getattrD` /
`setattr` on the instance's value mapping (the delete-forbidding behaviour of
the accessors is not needed by any operation modelled here).
-/

namespace CqlEngine

/-- A Python runtime value, as far as this model needs them. -/
inductive PyVal where
  | none
  | int (n : Int)
  | str (s : String)
  | uuid (n : Nat)
deriving Repr, DecidableEq

/-- Dict lookup: first binding of the key, if any. -/
def lookupA {α : Type} : List (String × α) → String → Option α
  | [], _ => Option.none
  | (k, v) :: rest, k' => if k = k' then some v else lookupA rest k'

/-- Dict assignment `d[k] = v`: replace the value in place if the key is
present (keeping its slot, as `OrderedDict` does), else append at the end. -/
def odInsert {α : Type} : List (String × α) → String → α → List (String × α)
  | [], k, v => [(k, v)]
  | (k', v') :: rest, k, v =>
    if k' = k then (k, v) :: rest else (k', v') :: odInsert rest k v

/-- Modelled from the spec: the Column capability of `cassandraengine.columns`
(`columns.py` is not under `src/`).  Attributes `position`, `primary_key`,
`db_field`; capabilities `validate`, `to_database`, `set_db_name`.
`db_field` is `some s` when the declaration carries an explicit storage-name
override, `Option.none` before `set_db_name` fills in the default. -/
structure BaseColumn where
  position : Nat
  primary_key : Bool
  db_field : Option String
  validate : PyVal → Except String PyVal
  to_database : PyVal → PyVal

/-- Modelled from the spec: `set_db_name(name)` — "a declaration not given an
explicit storage name defaults to its field name". -/
def BaseColumn.set_db_name (c : BaseColumn) (name : String) : BaseColumn :=
  match c.db_field with
  | Option.none => { c with db_field := some name }
  | some _ => c

/-- The resolved storage name of a column (after `set_db_name` it is always
present; the default is never reached for registered columns). -/
def BaseColumn.db_fieldD (c : BaseColumn) : String := c.db_field.getD ""

/-- Modelled from the spec: `columns.UUID(primary_key=True)` — a
universally-unique identifier column whose validator assigns a fresh
identifier for absent values (freshness is irrelevant to every claim here,
so the model picks a fixed identifier). -/
def UUID_pk : BaseColumn :=
  { position := 0
    primary_key := true
    db_field := Option.none
    validate := fun v =>
      match v with
      | PyVal.none => Except.ok (PyVal.uuid 0)
      | w => Except.ok w
    to_database := fun v => v }

/-- Modelled from the spec: `cassandraengine.exceptions.ModelException`
(`exceptions.py` is not under `src/`).  The raise site in `models.py` formats
the type name and the offending storage field into the message; the payload
keeps both. -/
structure ModelException where
  typeName : String
  dbField : String
deriving Repr, DecidableEq

/-- The class object built by `ModelMetaClass.__new__`: the management
attributes it installs, the (rebound) name passed to `type.__new__`, and what
is left of the `db_name` attribute after `attrs.pop('db_name', name)`
(nothing: the pop removes it, so instances fall back to `BaseModel.db_name`,
which is `None`). -/
structure Klass where
  name : String
  _columns : List (String × BaseColumn)
  _db_map : List (String × String)
  _pk_name : String
  _dynamic_columns : List (String × PyVal)
  db_name_attr : Option PyVal

/-- Stable insertion of an element into a position-sorted list: the element
goes before the first entry whose position is not smaller, so it lands after
every earlier entry with a strictly smaller position and before every entry
with an equal or larger one. -/
def insertByPos (a : String × BaseColumn) :
    List (String × BaseColumn) → List (String × BaseColumn)
  | [] => [a]
  | b :: rest =>
    if b.2.position < a.2.position then b :: insertByPos a rest
    else a :: b :: rest

/-- `sorted(column_definitions, lambda x,y: cmp(x[1].position, y[1].position))`:
Python 2's `sorted` is a stable ascending sort by the comparison key, and a
stable sort's output is uniquely determined by the key and the input order,
so the embedding uses stable insertion sort. -/
def sortByPosition : List (String × BaseColumn) → List (String × BaseColumn)
  | [] => []
  | a :: rest => insertByPos a (sortByPosition rest)

/-- The ordered column definitions after the primary-key synthesis step:
`if not any(v.primary_key ...): column_definitions = [('id', UUID(primary_key=True))] + column_definitions`. -/
def columnDefs (colDefs : List (String × BaseColumn)) :
    List (String × BaseColumn) :=
  let sortedDefs := sortByPosition colDefs
  if sortedDefs.any (fun kv => kv.2.primary_key) then sortedDefs
  else ("id", UUID_pk) :: sortedDefs

/-- The `_transform_column` loop: register each definition into the
`_columns` ordered dict after `set_db_name(col_name)`. -/
def transformColumns (defs : List (String × BaseColumn)) :
    List (String × BaseColumn) :=
  defs.foldl (fun acc kv => odInsert acc kv.1 (kv.2.set_db_name kv.1)) []

/-- The registered columns of a schema built from `colDefs`. -/
def registeredColumns (colDefs : List (String × BaseColumn)) :
    List (String × BaseColumn) :=
  transformColumns (columnDefs colDefs)

/-- `if pk_name is None and v.primary_key: pk_name = k` over the definition
loop: the first primary-key field name. -/
def firstPkName : List (String × BaseColumn) → Option String
  | [] => Option.none
  | (k, v) :: rest => if v.primary_key then some k else firstPkName rest

/-- The duplicate-storage-name check: walk `_columns` keeping the set of
`db_field` values seen so far; report the first repeated value. -/
def findDup : List (String × BaseColumn) → List String → Option String
  | [], _ => Option.none
  | (_, v) :: rest, seen =>
    if v.db_fieldD ∈ seen then some v.db_fieldD
    else findDup rest (v.db_fieldD :: seen)

/-- `cf_name = attrs.pop('db_name', name)`: the column-family name the builder
computes (and, in the source, never stores anywhere). -/
def cf_name (db_name : Option String) (name : String) : String :=
  db_name.getD name

/-- The `db_map` loop: `for name, col in _columns.items(): db_map[col.db_field] = name`. -/
def buildDbMap (cols : List (String × BaseColumn)) : List (String × String) :=
  cols.foldl (fun acc kv => odInsert acc kv.2.db_fieldD kv.1) []

/-- `ModelMetaClass.__new__(cls, name, bases, attrs)`.  `colDefs` is the list
of attrs entries that are column declarations, in attrs-iteration order;
`db_name` is the type body's `db_name` attribute if declared.  Mirrors the
source step for step: sort, synthesize the primary key, transform, find
`pk_name`, check duplicates (the only raise), pop `db_name` into the unused
local `cf_name`, build `db_map` — whose loop rebinds `name`, so
`type.__new__` receives the last column's field name — and assemble the
class attributes. -/
def ModelMetaClass_new (name : String) (colDefs : List (String × BaseColumn))
    (db_name : Option String) : Except ModelException Klass :=
  let defs := columnDefs colDefs
  let cols := transformColumns defs
  let pk_name := (firstPkName defs).getD ""
  match findDup cols [] with
  | some f => Except.error { typeName := name, dbField := f }
  | Option.none =>
    let _cfName := cf_name db_name name
    let db_map := buildDbMap cols
    let finalName :=
      match cols.getLast? with
      | some kv => kv.1
      | Option.none => name
    Except.ok
      { name := finalName
        _columns := cols
        _db_map := db_map
        _pk_name := pk_name
        _dynamic_columns := []
        db_name_attr := Option.none }

/-- A record instance: its value mapping (field name → current value).  The
class-level state it shares with every other instance of its type is
threaded separately as `TypeState`. -/
structure Instance where
  values : List (String × PyVal)
deriving Repr, DecidableEq

/-- `getattr(self, name, None)`: the instance's stored value, absent = `None`. -/
def getattrD (i : Instance) (n : String) : PyVal :=
  (lookupA i.values n).getD PyVal.none

/-- `setattr(self, name, v)`. -/
def setattr (i : Instance) (n : String) (v : PyVal) : Instance :=
  ⟨odInsert i.values n v⟩

/-- The mutable class-level state: the contents of the type's shared
`_dynamic_columns` dict (a single dict stored on the class by the
metaclass, not one per instance). -/
structure TypeState where
  dynamic : List (String × PyVal)
deriving Repr, DecidableEq

/-- The class-level state right after `ModelMetaClass.__new__`. -/
def initTypeState (k : Klass) : TypeState := ⟨k._dynamic_columns⟩

/-- `BaseModel.__init__(self, **values)`: set declared fields present in
`values` (unknown names ignored), then set the remaining declared fields to
`None`. -/
def BaseModel_init (k : Klass) (vals : List (String × PyVal)) : Instance :=
  let i1 := vals.foldl
    (fun i kv =>
      if (lookupA k._columns kv.1).isSome then setattr i kv.1 kv.2 else i)
    ⟨[]⟩
  k._columns.foldl
    (fun i kv =>
      if (lookupA vals kv.1).isSome then i else setattr i kv.1 PyVal.none)
    i1

/-- The `validate` loop: in `_columns` order, run each column's validator on
the current value and overwrite the field with the result.  A raised
`ValidationError` aborts the loop; the mutations already made persist, so
the result carries both the outcome and the instance state at that point. -/
def validateSteps :
    List (String × BaseColumn) → Instance → Option String × Instance
  | [], i => (Option.none, i)
  | (n, c) :: rest, i =>
    match c.validate (getattrD i n) with
    | Except.error e => (some e, i)
    | Except.ok v => validateSteps rest (setattr i n v)

/-- `BaseModel.validate(self)`. -/
def BaseModel_validate (k : Klass) (i : Instance) : Option String × Instance :=
  validateSteps k._columns i

/-- `BaseModel.as_dict(self)`: `values = self._dynamic_columns or {}` — an
empty shared dict is falsy, so a fresh dict is used; a non-empty one is
truthy, so `values` aliases the class-level dict and the loop's insertions
mutate it in place.  Returns the produced mapping and the class-level state
afterwards. -/
def BaseModel_as_dict (k : Klass) (st : TypeState) (i : Instance) :
    List (String × PyVal) × TypeState :=
  if st.dynamic.isEmpty then
    let values := k._columns.foldl
      (fun acc kv => odInsert acc kv.1 (kv.2.to_database (getattrD i kv.1))) []
    (values, st)
  else
    let values := k._columns.foldl
      (fun acc kv => odInsert acc kv.1 (kv.2.to_database (getattrD i kv.1)))
      st.dynamic
    (values, ⟨values⟩)

/-- A call the instance lifecycle makes on the Persistence Manager. -/
inductive ManagerCall where
  | saveInstance (i : Instance)
deriving Repr, DecidableEq

/-- What `BaseModel.save(self)` produces: the returned value (`self`, i.e.
the post-validation instance) or the propagated validation error, the
instance state after the call, the local `is_new`, and the Manager calls
made. -/
structure SaveResult where
  result : Except String Instance
  finalState : Instance
  is_new : Bool
  managerCalls : List ManagerCall
deriving Repr

/-- `BaseModel.save(self)`: `is_new = self.pk is None` (read before
validation; `pk` is `getattr(self, self._pk_name)`), then `self.validate()`,
then `self.objects._save_instance(self)`, then `return self`. -/
def BaseModel_save (k : Klass) (i : Instance) : SaveResult :=
  let is_new := decide (getattrD i k._pk_name = PyVal.none)
  match BaseModel_validate k i with
  | (some e, i') =>
    { result := Except.error e, finalState := i', is_new := is_new
      managerCalls := [] }
  | (Option.none, i') =>
    { result := Except.ok i', finalState := i', is_new := is_new
      managerCalls := [ManagerCall.saveInstance i'] }

/-- Modelled from the spec: the Manager's `NotFound` failure (`manager.py` is
not under `src/`); it carries the looked-up key. -/
structure NotFound where
  pk : PyVal
deriving Repr, DecidableEq

/-- `BaseModel.find(cls, pk)`: the body is `cls.objects.find(pk)` with no
`return` statement, so a successful lookup's result is discarded and the
method returns `None`; a `NotFound` raised by the Manager propagates.
`objects_find` is the Manager's lookup capability (modelled from the spec:
`find(primary_key) -> Record | fails with NotFound`). -/
def BaseModel_find (objects_find : PyVal → Except NotFound Instance)
    (pk : PyVal) : Except NotFound (Option Instance) :=
  match objects_find pk with
  | Except.error e => Except.error e
  | Except.ok _ => Except.ok Option.none

/-! ### Concrete columns and classes used to exercise the model -/

/-- A column that accepts and encodes every value unchanged. -/
def plainCol (pos : Nat) (pk : Bool) (dbf : Option String) : BaseColumn :=
  { position := pos
    primary_key := pk
    db_field := dbf
    validate := fun v => Except.ok v
    to_database := fun v => v }

/-- A column whose validator always fails. -/
def failCol (pos : Nat) : BaseColumn :=
  { position := pos
    primary_key := false
    db_field := Option.none
    validate := fun _ => Except.error "invalid"
    to_database := fun v => v }

/-- A placeholder class used only to destructure successful builder runs. -/
def defaultKlass : Klass :=
  { name := ""
    _columns := []
    _db_map := []
    _pk_name := ""
    _dynamic_columns := []
    db_name_attr := Option.none }

/-- The class of a successful builder run (the placeholder is never reached
in the concrete instantiations below). -/
def buildD (r : Except ModelException Klass) : Klass :=
  match r with
  | Except.ok k => k
  | Except.error _ => defaultKlass

/-! ### Association-list lemmas -/

theorem lookupA_odInsert_self {α : Type} (m : List (String × α)) (k : String)
    (v : α) : lookupA (odInsert m k v) k = some v := by
  induction m with
  | nil => simp [odInsert, lookupA]
  | cons hd tl ih =>
    by_cases h : hd.1 = k
    · simp [odInsert, h, lookupA]
    · simpa [odInsert, h, lookupA] using ih

theorem lookupA_odInsert_ne {α : Type} (m : List (String × α)) {k k' : String}
    (v : α) (h : k ≠ k') : lookupA (odInsert m k v) k' = lookupA m k' := by
  induction m with
  | nil => simp [odInsert, lookupA, h]
  | cons hd tl ih =>
    by_cases h1 : hd.1 = k
    · simp [odInsert, h1, lookupA, h]
    · by_cases h2 : hd.1 = k'
      · simp [odInsert, h1, lookupA, h2, Ne.symm h]
      · simpa [odInsert, h1, lookupA, h2] using ih

theorem odInsert_of_not_mem {α : Type} {m : List (String × α)} {k : String}
    (v : α) (h : k ∉ m.map Prod.fst) : odInsert m k v = m ++ [(k, v)] := by
  induction m with
  | nil => simp [odInsert]
  | cons hd tl ih =>
    simp only [List.map_cons, List.mem_cons, not_or] at h
    simp [odInsert, Ne.symm h.1, ih h.2]

theorem odInsert_ne_nil {α : Type} (m : List (String × α)) (k : String)
    (v : α) : odInsert m k v ≠ [] := by
  cases m with
  | nil => simp [odInsert]
  | cons hd tl =>
    by_cases h : hd.1 = k <;> simp [odInsert, h]

theorem lookupA_eq_none {α : Type} {m : List (String × α)} {k : String}
    (h : k ∉ m.map Prod.fst) : lookupA m k = Option.none := by
  induction m with
  | nil => rfl
  | cons hd tl ih =>
    simp only [List.map_cons, List.mem_cons, not_or] at h
    simp [lookupA, Ne.symm h.1, ih h.2]

theorem lookupA_map_of_mem {α β : Type} (f : String × α → β)
    {l : List (String × α)} {n : String} {c : α}
    (hnodup : (l.map Prod.fst).Nodup) (h : (n, c) ∈ l) :
    lookupA (l.map (fun kv => (kv.1, f kv))) n = some (f (n, c)) := by
  induction l with
  | nil => cases h
  | cons hd tl ih =>
    simp only [List.map_cons, List.nodup_cons] at hnodup
    rcases List.mem_cons.mp h with h1 | h1
    · subst h1; simp [lookupA]
    · have hne : hd.1 ≠ n := by
        intro he
        exact hnodup.1 (he ▸ (List.mem_map.mpr ⟨(n, c), h1, rfl⟩))
      simp only [List.map_cons, lookupA, hne, if_neg]
      exact ih hnodup.2 h1

/-- A fold of ordered-dict insertions whose keys are fresh and pairwise
distinct just appends the entries in order. -/
theorem foldl_odInsert_eq_append {γ β : Type} (keyf : γ → String)
    (valf : γ → β) :
    ∀ (l : List γ) (acc : List (String × β)),
      (l.map keyf).Nodup → (∀ x ∈ l.map keyf, x ∉ acc.map Prod.fst) →
      l.foldl (fun a c => odInsert a (keyf c) (valf c)) acc =
        acc ++ l.map (fun c => (keyf c, valf c)) := by
  intro l
  induction l with
  | nil => intro acc _ _; simp
  | cons hd tl ih =>
    intro acc hnodup hfresh
    simp only [List.map_cons, List.nodup_cons] at hnodup
    have hhd : keyf hd ∉ acc.map Prod.fst := by
      exact hfresh _ (by simp)
    have hstep : odInsert acc (keyf hd) (valf hd) = acc ++ [(keyf hd, valf hd)] :=
      odInsert_of_not_mem _ hhd
    simp only [List.foldl_cons, hstep]
    rw [ih (acc ++ [(keyf hd, valf hd)]) hnodup.2]
    · simp
    · intro x hx
      simp only [List.map_append, List.map_cons, List.map_nil, List.mem_append,
        List.mem_cons, List.not_mem_nil, or_false]
      rintro (hc | hc)
      · exact (hfresh x (by simp [hx])) hc
      · exact hnodup.1 (hc ▸ hx)

theorem foldl_odInsert_ne_nil {γ β : Type} (keyf : γ → String) (valf : γ → β) :
    ∀ (l : List γ) (acc : List (String × β)), acc ≠ [] →
      l.foldl (fun a c => odInsert a (keyf c) (valf c)) acc ≠ [] := by
  intro l
  induction l with
  | nil => intro acc h; simpa using h
  | cons hd tl ih =>
    intro acc _
    exact ih _ (odInsert_ne_nil _ _ _)

/-! ### Properties of the stable position sort -/

theorem insertByPos_perm (a : String × BaseColumn) :
    ∀ l : List (String × BaseColumn), (insertByPos a l).Perm (a :: l) := by
  intro l
  induction l with
  | nil => simp [insertByPos]
  | cons b rest ih =>
    by_cases h : b.2.position < a.2.position
    · simp only [insertByPos, h, if_pos]
      exact (ih.cons b).trans (List.Perm.swap a b rest)
    · simp [insertByPos, h]

theorem sortByPosition_perm :
    ∀ l : List (String × BaseColumn), (sortByPosition l).Perm l := by
  intro l
  induction l with
  | nil => simp [sortByPosition]
  | cons a rest ih =>
    exact (insertByPos_perm a (sortByPosition rest)).trans (ih.cons a)

theorem insertByPos_pairwise (a : String × BaseColumn)
    {l : List (String × BaseColumn)}
    (h : l.Pairwise (fun x y => x.2.position ≤ y.2.position)) :
    (insertByPos a l).Pairwise (fun x y => x.2.position ≤ y.2.position) := by
  induction l with
  | nil => simp [insertByPos]
  | cons b rest ih =>
    rcases List.pairwise_cons.mp h with ⟨hb, hrest⟩
    by_cases hlt : b.2.position < a.2.position
    · simp only [insertByPos, hlt, if_pos]
      refine List.pairwise_cons.mpr ⟨?_, ih hrest⟩
      intro x hx
      have : x ∈ a :: rest := (insertByPos_perm a rest).mem_iff.mp hx
      rcases List.mem_cons.mp this with h1 | h1
      · exact h1 ▸ Nat.le_of_lt hlt
      · exact hb x h1
    · simp only [insertByPos, hlt, if_neg, not_false_iff]
      refine List.pairwise_cons.mpr ⟨?_, h⟩
      intro x hx
      rcases List.mem_cons.mp hx with h1 | h1
      · exact h1 ▸ Nat.le_of_not_lt hlt
      · exact Nat.le_trans (Nat.le_of_not_lt hlt) (hb x h1)

theorem sortByPosition_pairwise (l : List (String × BaseColumn)) :
    (sortByPosition l).Pairwise (fun x y => x.2.position ≤ y.2.position) := by
  induction l with
  | nil => simp [sortByPosition]
  | cons a rest ih => exact insertByPos_pairwise a ih

theorem insertByPos_filter_pos (a : String × BaseColumn) (p : Nat) :
    ∀ l : List (String × BaseColumn),
      (insertByPos a l).filter (fun kv => kv.2.position == p) =
        if a.2.position == p
        then a :: l.filter (fun kv => kv.2.position == p)
        else l.filter (fun kv => kv.2.position == p) := by
  intro l
  induction l with
  | nil => by_cases h : a.2.position = p <;> simp [insertByPos, h]
  | cons b rest ih =>
    by_cases hlt : b.2.position < a.2.position
    · rw [insertByPos, if_pos hlt]
      by_cases hap : a.2.position = p
      · have hbp : ¬ b.2.position = p := by omega
        simp [List.filter_cons, hbp, hap, ih]
      · by_cases hbp : b.2.position = p <;>
          simp [List.filter_cons, hbp, hap, ih]
    · rw [insertByPos, if_neg hlt]
      by_cases hap : a.2.position = p <;>
        by_cases hbp : b.2.position = p <;>
          simp [List.filter_cons, hbp, hap]

theorem sortByPosition_filter_pos (p : Nat) :
    ∀ l : List (String × BaseColumn),
      (sortByPosition l).filter (fun kv => kv.2.position == p) =
        l.filter (fun kv => kv.2.position == p) := by
  intro l
  induction l with
  | nil => rfl
  | cons a rest ih =>
    by_cases hap : a.2.position = p <;>
      simp [sortByPosition, insertByPos_filter_pos, hap, List.filter_cons, ih]

theorem perm_any_eq {α : Type} {l₁ l₂ : List α} (h : l₁.Perm l₂)
    (f : α → Bool) : l₁.any f = l₂.any f := by
  cases h2 : l₂.any f with
  | true =>
    rcases List.any_eq_true.mp h2 with ⟨x, hx, hfx⟩
    exact List.any_eq_true.mpr ⟨x, h.mem_iff.mpr hx, hfx⟩
  | false =>
    rcases h1 : l₁.any f with _ | _
    · rfl
    · rcases List.any_eq_true.mp h1 with ⟨x, hx, hfx⟩
      rw [← h2]
      exact (List.any_eq_true.mpr ⟨x, h.mem_iff.mp hx, hfx⟩).symm

/-! ### Structure of the built schema -/

theorem set_db_name_primary_key (c : BaseColumn) (n : String) :
    (c.set_db_name n).primary_key = c.primary_key := by
  cases h : c.db_field <;> simp [BaseColumn.set_db_name, h]

theorem set_db_name_position (c : BaseColumn) (n : String) :
    (c.set_db_name n).position = c.position := by
  cases h : c.db_field <;> simp [BaseColumn.set_db_name, h]

theorem columnDefs_any_pk (colDefs : List (String × BaseColumn)) :
    (sortByPosition colDefs).any (fun kv => kv.2.primary_key) =
      colDefs.any (fun kv => kv.2.primary_key) :=
  perm_any_eq (sortByPosition_perm colDefs) _

theorem columnDefs_eq_ite (colDefs : List (String × BaseColumn)) :
    columnDefs colDefs =
      (if (sortByPosition colDefs).any (fun kv => kv.2.primary_key) = true
       then sortByPosition colDefs
       else ("id", UUID_pk) :: sortByPosition colDefs) := rfl

theorem columnDefs_keys_nodup {colDefs : List (String × BaseColumn)}
    (h1 : (colDefs.map Prod.fst).Nodup)
    (h2 : colDefs.any (fun kv => kv.2.primary_key) = false →
      "id" ∉ colDefs.map Prod.fst) :
    ((columnDefs colDefs).map Prod.fst).Nodup := by
  have hperm : ((sortByPosition colDefs).map Prod.fst).Perm
      (colDefs.map Prod.fst) := (sortByPosition_perm colDefs).map _
  have hsorted : ((sortByPosition colDefs).map Prod.fst).Nodup :=
    hperm.nodup_iff.mpr h1
  rw [columnDefs_eq_ite, columnDefs_any_pk]
  cases hany : colDefs.any (fun kv => kv.2.primary_key) with
  | true => simpa using hsorted
  | false =>
    simp only [Bool.false_eq_true, if_neg, not_false_iff, List.map_cons,
      List.nodup_cons]
    exact ⟨fun hc => h2 hany (hperm.mem_iff.mp hc), hsorted⟩

theorem registeredColumns_eq_map {colDefs : List (String × BaseColumn)}
    (hnodup : ((columnDefs colDefs).map Prod.fst).Nodup) :
    registeredColumns colDefs =
      (columnDefs colDefs).map (fun kv => (kv.1, kv.2.set_db_name kv.1)) := by
  unfold registeredColumns transformColumns
  have := foldl_odInsert_eq_append (fun kv : String × BaseColumn => kv.1)
    (fun kv => kv.2.set_db_name kv.1) (columnDefs colDefs) [] hnodup
    (by simp)
  simpa using this

theorem registeredColumns_ne_nil (colDefs : List (String × BaseColumn)) :
    registeredColumns colDefs ≠ [] := by
  unfold registeredColumns transformColumns
  have hne : columnDefs colDefs ≠ [] := by
    rw [columnDefs_eq_ite]
    cases hany : (sortByPosition colDefs).any (fun kv => kv.2.primary_key) with
    | false => simp
    | true =>
      rcases List.any_eq_true.mp hany with ⟨x, hx, _⟩
      simpa [hany] using List.ne_nil_of_mem hx
  rcases hc : columnDefs colDefs with _ | ⟨hd, tl⟩
  · exact absurd hc hne
  · simp only [List.foldl_cons]
    exact foldl_odInsert_ne_nil _ _ tl _ (odInsert_ne_nil _ _ _)

theorem firstPkName_eq_head_filter :
    ∀ l : List (String × BaseColumn),
      firstPkName l =
        ((l.filter (fun kv => kv.2.primary_key)).head?).map Prod.fst := by
  intro l
  induction l with
  | nil => rfl
  | cons hd tl ih =>
    cases hpk : hd.2.primary_key with
    | true => simp [firstPkName, hpk, List.filter_cons]
    | false => simpa [firstPkName, hpk, List.filter_cons] using ih

theorem ModelMetaClass_new_eq_match (name : String)
    (colDefs : List (String × BaseColumn)) (db_name : Option String) :
    ModelMetaClass_new name colDefs db_name =
      (match findDup (transformColumns (columnDefs colDefs)) [] with
       | some f => Except.error { typeName := name, dbField := f }
       | Option.none =>
         Except.ok
           { name := (match (transformColumns (columnDefs colDefs)).getLast? with
               | some kv => kv.1
               | Option.none => name)
             _columns := transformColumns (columnDefs colDefs)
             _db_map := buildDbMap (transformColumns (columnDefs colDefs))
             _pk_name := (firstPkName (columnDefs colDefs)).getD ""
             _dynamic_columns := []
             db_name_attr := Option.none }) := rfl

/-- Destructure a successful builder run into the attributes it installs. -/
theorem build_ok_elim {name : String} {colDefs : List (String × BaseColumn)}
    {db_name : Option String} {k : Klass}
    (h : ModelMetaClass_new name colDefs db_name = Except.ok k) :
    k._columns = registeredColumns colDefs ∧
    k._pk_name = (firstPkName (columnDefs colDefs)).getD "" ∧
    k._dynamic_columns = [] ∧
    k.db_name_attr = Option.none ∧
    k._db_map = buildDbMap (registeredColumns colDefs) ∧
    k.name = (match (registeredColumns colDefs).getLast? with
      | some kv => kv.1
      | Option.none => name) := by
  rw [ModelMetaClass_new_eq_match] at h
  rcases hdup : findDup (transformColumns (columnDefs colDefs)) [] with _ | f
  · rw [hdup] at h
    simp only [Except.ok.injEq] at h
    subst h
    exact ⟨rfl, rfl, rfl, rfl, rfl, rfl⟩
  · rw [hdup] at h
    cases h

/-- Destructure a failed builder run. -/
theorem build_error_elim {name : String} {colDefs : List (String × BaseColumn)}
    {db_name : Option String} {e : ModelException}
    (h : ModelMetaClass_new name colDefs db_name = Except.error e) :
    findDup (registeredColumns colDefs) [] = some e.dbField ∧
    e.typeName = name := by
  rw [ModelMetaClass_new_eq_match] at h
  rcases hdup : findDup (transformColumns (columnDefs colDefs)) [] with _ | f
  · rw [hdup] at h; cases h
  · rw [hdup] at h
    simp only [Except.error.injEq] at h
    subst h
    exact ⟨hdup, rfl⟩

/-! ### The duplicate-storage-name check -/

theorem findDup_eq_none_iff :
    ∀ (l : List (String × BaseColumn)) (seen : List String),
      findDup l seen = Option.none ↔
        ((l.map (fun kv => kv.2.db_fieldD)).Nodup ∧
          ∀ x ∈ l.map (fun kv => kv.2.db_fieldD), x ∉ seen) := by
  intro l
  induction l with
  | nil => intro seen; simp [findDup]
  | cons hd tl ih =>
    intro seen
    by_cases h : hd.2.db_fieldD ∈ seen
    · simp only [findDup, h, if_pos, List.map_cons, List.nodup_cons]
      constructor
      · intro hc; cases hc
      · intro ⟨_, hfresh⟩
        exact absurd h (hfresh _ (by simp))
    · simp only [findDup, h, if_neg, not_false_iff, List.map_cons,
        List.nodup_cons]
      rw [ih]
      constructor
      · intro ⟨hn, hfresh⟩
        refine ⟨⟨?_, hn⟩, ?_⟩
        · intro hc
          exact absurd (List.mem_cons_self _ _) (hfresh _ hc).elim
        · intro x hx
          simp only [List.mem_cons] at hx
          rcases hx with hx | hx
          · exact hx ▸ h
          · intro hc
            have := hfresh x hx
            exact this (List.mem_cons_of_mem _ hc)
      · intro ⟨⟨hne, hn⟩, hfresh⟩
        refine ⟨hn, ?_⟩
        intro x hx
        simp only [List.mem_cons]
        rintro (hc | hc)
        · exact hne (hc ▸ hx)
        · exact (hfresh x (List.mem_cons_of_mem _ hx)) hc

theorem findDup_some :
    ∀ (l : List (String × BaseColumn)) (seen : List String) (f : String),
      findDup l seen = some f →
        (f ∈ seen ∧ f ∈ l.map (fun kv => kv.2.db_fieldD)) ∨
          2 ≤ (l.map (fun kv => kv.2.db_fieldD)).count f := by
  intro l
  induction l with
  | nil => intro seen f h; cases h
  | cons hd tl ih =>
    intro seen f h
    by_cases hm : hd.2.db_fieldD ∈ seen
    · simp only [findDup, hm, if_pos, Option.some.injEq] at h
      subst h
      exact Or.inl ⟨hm, by simp⟩
    · simp only [findDup, hm, if_neg, not_false_iff] at h
      rcases ih _ _ h with ⟨hseen, hmem⟩ | hcount
      · rcases List.mem_cons.mp hseen with h1 | h1
        · refine Or.inr ?_
          subst h1
          have : 1 ≤ (tl.map (fun kv => kv.2.db_fieldD)).count hd.2.db_fieldD :=
            List.one_le_count_iff.mpr hmem
          simp only [List.map_cons, List.count_cons_self]
          omega
        · exact Or.inl ⟨h1, by simp [hmem]⟩
      · refine Or.inr ?_
        simp only [List.map_cons]
        calc 2 ≤ (tl.map (fun kv => kv.2.db_fieldD)).count f := hcount
        _ ≤ _ := List.count_le_count_cons _ _ _

/-! ### Instance lifecycle lemmas -/

theorem getattrD_setattr_self (i : Instance) (n : String) (v : PyVal) :
    getattrD (setattr i n v) n = v := by
  simp [getattrD, setattr, lookupA_odInsert_self]

theorem getattrD_setattr_ne (i : Instance) {n m : String} (v : PyVal)
    (h : n ≠ m) : getattrD (setattr i n v) m = getattrD i m := by
  simp [getattrD, setattr, lookupA_odInsert_ne _ _ h]

/-- Fields whose name is not among the processed columns are untouched by
the validation loop, whether it succeeds or aborts. -/
theorem validateSteps_untouched :
    ∀ (cols : List (String × BaseColumn)) (i : Instance) {m : String},
      m ∉ cols.map Prod.fst →
      getattrD (validateSteps cols i).2 m = getattrD i m := by
  intro cols
  induction cols with
  | nil => intro i m _; rfl
  | cons hd tl ih =>
    intro i m hm
    simp only [List.map_cons, List.mem_cons, not_or] at hm
    rcases hd with ⟨n, c⟩
    simp only [validateSteps]
    rcases hv : c.validate (getattrD i n) with e | v
    · rfl
    · simp only []
      rw [ih _ hm.2, getattrD_setattr_ne _ _ (fun he => hm.1 he.symm)]

/-- Successful validation: every column's validator ran on the field's
pre-validation value and its result was written back. -/
theorem validateSteps_ok :
    ∀ (cols : List (String × BaseColumn)) (i i' : Instance),
      (cols.map Prod.fst).Nodup →
      validateSteps cols i = (Option.none, i') →
      (∀ n c, (n, c) ∈ cols →
        ∃ v, c.validate (getattrD i n) = Except.ok v ∧ getattrD i' n = v) ∧
      (∀ m, m ∉ cols.map Prod.fst → getattrD i' m = getattrD i m) := by
  intro cols
  induction cols with
  | nil =>
    intro i i' _ h
    simp only [validateSteps, Prod.mk.injEq] at h
    exact ⟨fun n c hc => absurd hc (List.not_mem_nil _), fun m _ => h.2 ▸ rfl⟩
  | cons hd tl ih =>
    intro i i' hnodup h
    rcases hd with ⟨n, c⟩
    simp only [List.map_cons, List.nodup_cons] at hnodup
    simp only [validateSteps] at h
    rcases hv : c.validate (getattrD i n) with e | v
    · rw [hv] at h; cases h
    · rw [hv] at h
      rcases ih (setattr i n v) i' hnodup.2 h with ⟨hvals, huntouched⟩
      constructor
      · intro m cm hm
        rcases List.mem_cons.mp hm with h1 | h1
        · rw [show m = n from congrArg Prod.fst h1,
            show cm = c from congrArg Prod.snd h1]
          refine ⟨v, hv, ?_⟩
          rw [huntouched n hnodup.1, getattrD_setattr_self]
        · have hmn : m ≠ n := by
            intro he
            exact hnodup.1 (he ▸ List.mem_map.mpr ⟨(m, cm), h1, rfl⟩)
          rcases hvals m cm h1 with ⟨w, hw1, hw2⟩
          rw [getattrD_setattr_ne _ _ (Ne.symm hmn)] at hw1
          exact ⟨w, hw1, hw2⟩
      · intro m hm
        simp only [List.map_cons, List.mem_cons, not_or] at hm
        rw [huntouched m hm.2, getattrD_setattr_ne _ _ (fun he => hm.1 he.symm)]

/-- Aborted validation: the columns split into a validated prefix (fields
overwritten with their validators' results), the failing column (its
validator raised on the field's pre-validation value), and everything else
untouched. -/
theorem validateSteps_err :
    ∀ (cols : List (String × BaseColumn)) (i i' : Instance) (e : String),
      (cols.map Prod.fst).Nodup →
      validateSteps cols i = (some e, i') →
      ∃ pre nj cj rest, cols = pre ++ (nj, cj) :: rest ∧
        (∀ m cm, (m, cm) ∈ pre →
          ∃ v, cm.validate (getattrD i m) = Except.ok v ∧ getattrD i' m = v) ∧
        cj.validate (getattrD i nj) = Except.error e ∧
        (∀ m, m ∉ pre.map Prod.fst → getattrD i' m = getattrD i m) := by
  intro cols
  induction cols with
  | nil => intro i i' e _ h; cases h
  | cons hd tl ih =>
    intro i i' e hnodup h
    rcases hd with ⟨n, c⟩
    simp only [List.map_cons, List.nodup_cons] at hnodup
    simp only [validateSteps] at h
    rcases hv : c.validate (getattrD i n) with e' | v
    · rw [hv] at h
      simp only [Prod.mk.injEq, Option.some.injEq] at h
      refine ⟨[], n, c, tl, by simp, by simp, ?_, ?_⟩
      · rw [hv, h.1]
      · intro m _; rw [← h.2]
    · rw [hv] at h
      rcases ih (setattr i n v) i' e hnodup.2 h with
        ⟨pre, nj, cj, rest, hsplit, hpre, hfailn, huntouched⟩
      refine ⟨(n, c) :: pre, nj, cj, rest, by rw [hsplit, List.cons_append],
        ?_, ?_, ?_⟩
      · intro m cm hm
        rcases List.mem_cons.mp hm with h1 | h1
        · rw [show m = n from congrArg Prod.fst h1,
            show cm = c from congrArg Prod.snd h1]
          refine ⟨v, hv, ?_⟩
          have hnpre : n ∉ pre.map Prod.fst := by
            intro hc
            apply hnodup.1
            have : pre.map Prod.fst ⊆ tl.map Prod.fst := by
              intro x hx
              rw [hsplit, List.map_append]
              exact List.mem_append_left _ hx
            exact this hc
          rw [huntouched n hnpre, getattrD_setattr_self]
        · have hmn : m ≠ n := by
            intro he
            apply hnodup.1
            have : m ∈ tl.map Prod.fst := by
              rw [hsplit, List.map_append]
              exact List.mem_append_left _ (List.mem_map.mpr ⟨(m, cm), h1, rfl⟩)
            exact he ▸ this
          rcases hpre m cm h1 with ⟨w, hw1, hw2⟩
          rw [getattrD_setattr_ne _ _ (Ne.symm hmn)] at hw1
          exact ⟨w, hw1, hw2⟩
      · have hnjn : nj ≠ n := by
          intro he
          apply hnodup.1
          have : nj ∈ tl.map Prod.fst := by
            rw [hsplit, List.map_append, List.map_cons]
            exact List.mem_append_right _ (List.mem_cons_self _ _)
          exact he ▸ this
        rw [getattrD_setattr_ne _ _ (Ne.symm hnjn)] at hfailn
        exact hfailn
      · intro m hm
        simp only [List.map_cons, List.mem_cons, not_or] at hm
        rw [huntouched m hm.2, getattrD_setattr_ne _ _ (fun he => hm.1 he.symm)]

/-! ### Construction lemmas -/

theorem getattrD_foldl_of_notmem {γ : Type} (keyf : γ → String)
    (step : Instance → γ → Instance) {n : String}
    (hstep : ∀ i c, keyf c ≠ n → getattrD (step i c) n = getattrD i n) :
    ∀ (l : List γ) (i : Instance), n ∉ l.map keyf →
      getattrD (l.foldl step i) n = getattrD i n := by
  intro l
  induction l with
  | nil => intro i _; rfl
  | cons hd tl ih =>
    intro i hm
    simp only [List.map_cons, List.mem_cons, not_or] at hm
    simp only [List.foldl_cons]
    rw [ih _ hm.2, hstep i hd (fun he => hm.1 he.symm)]

/-- A field supplied at construction time (with the declared-fields pass not
overwriting it) holds the supplied value. -/
theorem getattrD_init {k : Klass} {vals : List (String × PyVal)} {n : String}
    {v : PyVal} (hnodupv : (vals.map Prod.fst).Nodup)
    (hdecl : (lookupA k._columns n).isSome) (hv : lookupA vals n = some v) :
    getattrD (BaseModel_init k vals) n = v := by
  unfold BaseModel_init
  have hvsome : (lookupA vals n).isSome := by rw [hv]; rfl
  have hpass2 : ∀ (cols : List (String × BaseColumn)) (i : Instance),
      getattrD (cols.foldl
        (fun i kv =>
          if (lookupA vals kv.1).isSome then i else setattr i kv.1 PyVal.none)
        i) n = getattrD i n := by
    intro cols
    induction cols with
    | nil => intro i; rfl
    | cons hd tl ih =>
      intro i
      simp only [List.foldl_cons]
      rw [ih]
      by_cases hc : (lookupA vals hd.1).isSome
      · rw [if_pos hc]
      · rw [if_neg hc]
        have hne : hd.1 ≠ n := by
          intro he; exact hc (he ▸ hvsome)
        rw [getattrD_setattr_ne _ _ hne]
  rw [hpass2]
  clear hpass2
  have hstep : ∀ (i : Instance) (c : String × PyVal), c.1 ≠ n →
      getattrD
        (if (lookupA k._columns c.1).isSome then setattr i c.1 c.2 else i) n =
        getattrD i n := by
    intro i c hne
    by_cases hc : (lookupA k._columns c.1).isSome
    · rw [if_pos hc, getattrD_setattr_ne _ _ hne]
    · rw [if_neg hc]
  have hpass1 : ∀ (vl : List (String × PyVal)), (vl.map Prod.fst).Nodup →
      lookupA vl n = some v → ∀ i : Instance,
      getattrD (vl.foldl
        (fun i kv =>
          if (lookupA k._columns kv.1).isSome then setattr i kv.1 kv.2 else i)
        i) n = v := by
    intro vl
    induction vl with
    | nil => intro _ hl; cases hl
    | cons hd tl ih =>
      intro hnd hl i
      simp only [List.map_cons, List.nodup_cons] at hnd
      by_cases he : hd.1 = n
      · have hvd : hd.2 = v := by
          rw [lookupA, if_pos he] at hl
          exact Option.some.inj hl
        simp only [List.foldl_cons, he ▸ hdecl, if_pos]
        rw [getattrD_foldl_of_notmem (fun kv : String × PyVal => kv.1)
          _ hstep tl _ (he ▸ hnd.1)]
        rw [← he, getattrD_setattr_self]
        exact hvd
      · rw [lookupA, if_neg he] at hl
        simp only [List.foldl_cons]
        exact ih hnd.2 hl _
  exact hpass1 vals hnodupv hv _

theorem lookupA_isSome_of_mem {α : Type} {l : List (String × α)} {n : String}
    {c : α} (h : (n, c) ∈ l) : (lookupA l n).isSome := by
  induction l with
  | nil => cases h
  | cons hd tl ih =>
    by_cases he : hd.1 = n
    · simp [lookupA, he]
    · rcases List.mem_cons.mp h with h1 | h1
      · exact absurd (congrArg Prod.fst h1.symm) he
      · simpa [lookupA, he] using ih h1

/-- With the shared dynamic dict empty (as the metaclass initializes it),
`as_dict` builds a fresh mapping containing one entry per declared column,
in schema order, and leaves the class-level state unchanged. -/
theorem as_dict_of_empty_dynamic {k : Klass} {st : TypeState} (i : Instance)
    (hdyn : st.dynamic = []) (hnodup : (k._columns.map Prod.fst).Nodup) :
    (BaseModel_as_dict k st i).1 =
      k._columns.map (fun kv => (kv.1, kv.2.to_database (getattrD i kv.1))) ∧
    (BaseModel_as_dict k st i).2 = st := by
  unfold BaseModel_as_dict
  rw [hdyn]
  simp only [List.isEmpty_nil, if_pos]
  constructor
  · have := foldl_odInsert_eq_append (fun kv : String × BaseColumn => kv.1)
      (fun kv => kv.2.to_database (getattrD i kv.1)) k._columns [] hnodup
      (by simp)
    simpa using this
  · trivial

/-! ### Claim theorems -/

/-- Class with two columns, neither storage-overridden, pk on the first. -/
def wDefsTwo : List (String × BaseColumn) :=
  [("a", plainCol 0 true Option.none), ("b", plainCol 1 false Option.none)]

def wKlassTwo : Klass := buildD (ModelMetaClass_new "Foo" wDefsTwo Option.none)

/-- Class with one pk column whose storage name is overridden to `g`. -/
def wKlassOverride : Klass :=
  buildD (ModelMetaClass_new "M" [("f", plainCol 0 true (some "g"))]
    Option.none)

def wInstOverride : Instance :=
  BaseModel_init wKlassOverride [("f", PyVal.str "v")]

def wPostOverride : Instance :=
  (BaseModel_validate wKlassOverride wInstOverride).2

def wDictOverride : List (String × PyVal) :=
  (BaseModel_as_dict wKlassOverride (initTypeState wKlassOverride)
    wPostOverride).1

/-- A stored record for exercising `find`. -/
def wRecord : Instance := ⟨[("x", PyVal.int 7)]⟩

/-- C10: for every record type whose schema has at least one column (which
is every schema: an identifier is synthesized when no column is declared),
the name under which the builder creates the type is the loop variable left
over from the `db_map` loop — the field name of the last registered
column. -/
theorem C10_klass_name_is_last_column (name : String)
    (colDefs : List (String × BaseColumn)) (db_name : Option String)
    (k : Klass)
    (hbuild : ModelMetaClass_new name colDefs db_name = Except.ok k) :
    ∃ kv, k._columns.getLast? = some kv ∧ k.name = kv.1 := by
  rcases build_ok_elim hbuild with ⟨hcols, -, -, -, -, hname⟩
  have hne : k._columns ≠ [] := by
    rw [hcols]; exact registeredColumns_ne_nil colDefs
  rcases hlast : k._columns.getLast? with _ | kv
  · exact absurd (List.getLast?_eq_none_iff.mp hlast) hne
  · refine ⟨kv, rfl, ?_⟩
    rw [hname, ← hcols, hlast]

/-- C10 witness: a type declared as `Foo` with columns `a`, `b` is created
under the name `b`, not `Foo`. -/
theorem C10_witness :
    (∃ kv, wKlassTwo._columns.getLast? = some kv ∧ wKlassTwo.name = kv.1) ∧
    wKlassTwo.name = "b" :=
  ⟨C10_klass_name_is_last_column "Foo" wDefsTwo Option.none wKlassTwo rfl,
    rfl⟩

/-- C2 (code bug): `find` has no `return` statement, so a successful
Manager lookup's record is discarded and the caller receives `None`; a
`NotFound` failure does propagate unchanged. -/
theorem C2_find_discards_result :
    BaseModel_find (fun _ => Except.ok wRecord) (PyVal.int 1) =
      Except.ok Option.none ∧
    (∀ pk : PyVal,
      BaseModel_find (fun q => Except.error { pk := q }) pk =
        Except.error { pk := pk }) :=
  ⟨rfl, fun _ => rfl⟩

/-- Class declared as `Foo` with an explicit `db_name` override `bar`. -/
def wKlassDbName : Klass :=
  buildD (ModelMetaClass_new "Foo" [("x", plainCol 0 true Option.none)]
    (some "bar"))

/-- C4 (code bug): the builder computes `cf_name` (`bar` here) but stores
it nowhere — the class attributes enumerate in full below and none holds
the override; `db_name` itself was popped from the attrs, so instances fall
back to `BaseModel.db_name = None`.  Even the created type's name is `x`,
not `Foo`. -/
theorem C4_cf_name_never_recorded :
    ModelMetaClass_new "Foo" [("x", plainCol 0 true Option.none)]
      (some "bar") = Except.ok wKlassDbName ∧
    cf_name (some "bar") "Foo" = "bar" ∧
    wKlassDbName.db_name_attr = Option.none ∧
    wKlassDbName.name = "x" ∧
    wKlassDbName._columns.map Prod.fst = ["x"] ∧
    wKlassDbName._db_map = [("x", "x")] ∧
    wKlassDbName._pk_name = "x" ∧
    wKlassDbName._dynamic_columns = [] :=
  ⟨rfl, rfl, rfl, rfl, rfl, rfl, rfl, rfl⟩

/-- Class with a single pk column `x`, for the shared-dynamic-dict claim. -/
def wKlassDyn : Klass :=
  buildD (ModelMetaClass_new "M" [("x", plainCol 0 true Option.none)]
    Option.none)

def wInstDynA : Instance := BaseModel_init wKlassDyn [("x", PyVal.int 1)]

/-- The shared class-level dynamic dict, once something put `d ↦ "w"`
into it. -/
def wShared : TypeState := ⟨[("d", PyVal.str "w")]⟩

/-- C9 (code bug): `_dynamic_columns` is a single dict stored on the class
(one per type, not per instance), and `as_dict` on one instance of the
type, when that dict is non-empty, mutates it in place — afterwards every
other instance of the type observes the polluted mapping. -/
theorem C9_shared_dynamic_mutated :
    wKlassDyn._dynamic_columns = [] ∧
    (BaseModel_as_dict wKlassDyn wShared wInstDynA).2.dynamic =
      [("d", PyVal.str "w"), ("x", PyVal.int 1)] ∧
    (BaseModel_as_dict wKlassDyn wShared wInstDynA).2 ≠ wShared :=
  ⟨rfl, rfl, by decide⟩

/-- C1 counterexample: with a column `f` whose storage name is overridden
to `g`, the mapping produced by `as_dict` after a successful `validate` is
keyed by the field name `f` — it has no entry under the storage name `g`,
contradicting the claim that the keys are the columns' `db_field` values. -/
theorem C1_counterexample :
    (lookupA wKlassOverride._columns "f").map (fun c => c.db_fieldD) =
      some "g" ∧
    (BaseModel_validate wKlassOverride wInstOverride).1 = Option.none ∧
    wDictOverride.map Prod.fst = ["f"] ∧
    lookupA wDictOverride "g" = Option.none :=
  ⟨rfl, rfl, rfl, rfl⟩

/-- C1 as amended: for an instance constructed with a value for every
declared field, `as_dict()` after a successful `validate()` yields a
mapping keyed by the columns' *field names* (one entry per declared column,
in schema order), each mapped to `to_database(validate(v))`. -/
theorem C1_as_dict_keys_are_field_names (name : String)
    (colDefs : List (String × BaseColumn)) (db_name : Option String)
    (vals : List (String × PyVal)) (k : Klass) (i' : Instance)
    (h1 : (colDefs.map Prod.fst).Nodup)
    (h2 : colDefs.any (fun kv => kv.2.primary_key) = false →
      "id" ∉ colDefs.map Prod.fst)
    (h3 : (vals.map Prod.fst).Nodup)
    (hbuild : ModelMetaClass_new name colDefs db_name = Except.ok k)
    (hval : BaseModel_validate k (BaseModel_init k vals) =
      (Option.none, i')) :
    (BaseModel_as_dict k (initTypeState k) i').1.map Prod.fst =
      k._columns.map Prod.fst ∧
    ∀ n c v, (n, c) ∈ k._columns → lookupA vals n = some v →
      ∃ w, c.validate v = Except.ok w ∧
        lookupA (BaseModel_as_dict k (initTypeState k) i').1 n =
          some (c.to_database w) := by
  rcases build_ok_elim hbuild with ⟨hcols, -, hdynamic, -, -, -⟩
  have hkeysnodup : (k._columns.map Prod.fst).Nodup := by
    rw [hcols, registeredColumns_eq_map (columnDefs_keys_nodup h1 h2)]
    simpa using columnDefs_keys_nodup h1 h2
  have hdyn : (initTypeState k).dynamic = [] := hdynamic
  rcases as_dict_of_empty_dynamic i' hdyn hkeysnodup with ⟨hdict, -⟩
  constructor
  · rw [hdict]; simp
  · intro n c v hm hv
    have hdecl : (lookupA k._columns n).isSome := lookupA_isSome_of_mem hm
    have hinit : getattrD (BaseModel_init k vals) n = v :=
      getattrD_init h3 hdecl hv
    rcases validateSteps_ok k._columns (BaseModel_init k vals) i'
        hkeysnodup hval with ⟨hvals, -⟩
    rcases hvals n c hm with ⟨w, hw1, hw2⟩
    rw [hinit] at hw1
    refine ⟨w, hw1, ?_⟩
    rw [hdict,
      lookupA_map_of_mem (fun kv => kv.2.to_database (getattrD i' kv.1))
        hkeysnodup hm, hw2]

/-- C1 witness: the amended statement at the concrete override class —
`as_dict` after `validate` maps the field name `f` to the encoded
validated value. -/
theorem C1_witness :
    ∃ w, ((plainCol 0 true (some "g")).set_db_name "f").validate
        (PyVal.str "v") = Except.ok w ∧
      lookupA wDictOverride "f" =
        some (((plainCol 0 true (some "g")).set_db_name "f").to_database
          w) :=
  (C1_as_dict_keys_are_field_names "M"
      [("f", plainCol 0 true (some "g"))] Option.none
      [("f", PyVal.str "v")] wKlassOverride wPostOverride
      (by decide) (by decide) (by decide) rfl rfl).2
    "f" ((plainCol 0 true (some "g")).set_db_name "f") (PyVal.str "v")
    (by exact List.mem_cons_self _ _) rfl

theorem registered_filter_pk {colDefs : List (String × BaseColumn)}
    (hnodup : ((columnDefs colDefs).map Prod.fst).Nodup) :
    (registeredColumns colDefs).filter (fun kv => kv.2.primary_key) =
      ((columnDefs colDefs).filter (fun kv => kv.2.primary_key)).map
        (fun kv => (kv.1, kv.2.set_db_name kv.1)) := by
  rw [registeredColumns_eq_map hnodup, List.filter_map]
  have hpred : ∀ kv : String × BaseColumn,
      ((fun kv : String × BaseColumn => kv.2.primary_key) ∘
        fun kv : String × BaseColumn => (kv.1, kv.2.set_db_name kv.1)) kv =
        kv.2.primary_key := by
    intro kv
    simp [Function.comp, set_db_name_primary_key]
  rw [List.filter_congr (fun kv _ => hpred kv)]

/-- Two classes with two explicit primary keys each would clash if they
shared theorem material; this one is for the C3 counterexample. -/
def wDefsTwoPk : List (String × BaseColumn) :=
  [("a", plainCol 0 true Option.none), ("b", plainCol 1 true Option.none)]

/-- C3 counterexample: a type declaring *two* primary-key columns builds
without error, and the resulting schema contains two primary-key columns —
the builder never checks primary-key uniqueness. -/
theorem C3_counterexample :
    (ModelMetaClass_new "T" wDefsTwoPk Option.none).toOption.isSome = true ∧
    ((buildD (ModelMetaClass_new "T" wDefsTwoPk Option.none))._columns.filter
      (fun kv => kv.2.primary_key)).length = 2 ∧
    (buildD (ModelMetaClass_new "T" wDefsTwoPk Option.none))._pk_name = "a" :=
  ⟨rfl, rfl, rfl⟩

/-- C3 as amended: with no declared primary key (and no declared column
named `id`), the synthesized `id` column is the sole primary key and sits
first, with `primary_key_name = "id"`; with exactly one declared primary
key, `primary_key_name` is that column's field name and nothing is
synthesized; in general the schema has `max 1 n` primary-key columns where
`n` is the number of declared ones — more than one declared primary key is
accepted and kept. -/
theorem C3_primary_key_resolution (name : String)
    (colDefs : List (String × BaseColumn)) (db_name : Option String)
    (k : Klass)
    (h1 : (colDefs.map Prod.fst).Nodup)
    (h2 : colDefs.any (fun kv => kv.2.primary_key) = false →
      "id" ∉ colDefs.map Prod.fst)
    (hbuild : ModelMetaClass_new name colDefs db_name = Except.ok k) :
    (colDefs.filter (fun kv => kv.2.primary_key) = [] →
      k._columns.head?.map Prod.fst = some "id" ∧
      (k._columns.filter (fun kv => kv.2.primary_key)).length = 1 ∧
      k._pk_name = "id") ∧
    (∀ n c, colDefs.filter (fun kv => kv.2.primary_key) = [(n, c)] →
      k._pk_name = n ∧
      k._columns.map Prod.fst = (sortByPosition colDefs).map Prod.fst) ∧
    (k._columns.filter (fun kv => kv.2.primary_key)).length =
      max 1 (colDefs.filter (fun kv => kv.2.primary_key)).length := by
  rcases build_ok_elim hbuild with ⟨hcols, hpk, -, -, -, -⟩
  have hnodup := columnDefs_keys_nodup h1 h2
  have hfilterperm :
      ((sortByPosition colDefs).filter (fun kv => kv.2.primary_key)).Perm
        (colDefs.filter (fun kv => kv.2.primary_key)) :=
    (sortByPosition_perm colDefs).filter _
  have hfilter := @registered_filter_pk colDefs hnodup
  refine ⟨?_, ?_, ?_⟩
  · intro hnone
    have hany : colDefs.any (fun kv => kv.2.primary_key) = false := by
      rcases hany : colDefs.any (fun kv => kv.2.primary_key) with _ | _
      · rfl
      · rcases List.any_eq_true.mp hany with ⟨x, hx, hfx⟩
        have : x ∈ colDefs.filter (fun kv => kv.2.primary_key) :=
          List.mem_filter.mpr ⟨hx, hfx⟩
        rw [hnone] at this
        cases this
    have hcd : columnDefs colDefs = ("id", UUID_pk) :: sortByPosition colDefs := by
      rw [columnDefs_eq_ite, columnDefs_any_pk, hany]
      simp
    have hsortnone :
        (sortByPosition colDefs).filter (fun kv => kv.2.primary_key) = [] :=
      (hnone ▸ hfilterperm).eq_nil
    refine ⟨?_, ?_, ?_⟩
    · rw [hcols, registeredColumns_eq_map hnodup, hcd]
      rfl
    · rw [hcols, hfilter, hcd]
      simp [List.filter_cons, UUID_pk, hsortnone]
    · rw [hpk, hcd, firstPkName_eq_head_filter]
      simp [List.filter_cons, UUID_pk, hsortnone]
  · intro n c hone
    have hmemf : (n, c) ∈ colDefs.filter (fun kv => kv.2.primary_key) := by
      rw [hone]
      exact List.mem_cons_self _ _
    have hany : colDefs.any (fun kv => kv.2.primary_key) = true :=
      List.any_eq_true.mpr ⟨(n, c), List.mem_of_mem_filter hmemf,
        (List.mem_filter.mp hmemf).2⟩
    have hcd : columnDefs colDefs = sortByPosition colDefs := by
      rw [columnDefs_eq_ite, columnDefs_any_pk, hany]
      simp
    have hsortone :
        (sortByPosition colDefs).filter (fun kv => kv.2.primary_key) =
          [(n, c)] :=
      List.perm_singleton.mp (hone ▸ hfilterperm)
    refine ⟨?_, ?_⟩
    · rw [hpk, hcd, firstPkName_eq_head_filter, hsortone]
      rfl
    · rw [hcols, registeredColumns_eq_map hnodup, hcd]
      simp
  · rw [hcols, hfilter, List.length_map]
    have hlenperm :
        ((sortByPosition colDefs).filter
          (fun kv => kv.2.primary_key)).length =
          (colDefs.filter (fun kv => kv.2.primary_key)).length :=
      hfilterperm.length_eq
    rcases hany : colDefs.any (fun kv => kv.2.primary_key) with _ | _
    · have hcd : columnDefs colDefs =
          ("id", UUID_pk) :: sortByPosition colDefs := by
        rw [columnDefs_eq_ite, columnDefs_any_pk, hany]
        simp
      have hnone : colDefs.filter (fun kv => kv.2.primary_key) = [] := by
        rw [List.filter_eq_nil_iff]
        intro a ha
        exact (List.any_eq_false.mp hany) a ha
      have hsortnil :
          (sortByPosition colDefs).filter (fun kv => kv.2.primary_key) =
            [] := (hnone ▸ hfilterperm).eq_nil
      rw [hcd, List.filter_cons, hnone]
      simp [UUID_pk, hsortnil]
    · have hcd : columnDefs colDefs = sortByPosition colDefs := by
        rw [columnDefs_eq_ite, columnDefs_any_pk, hany]
        simp
      rcases List.any_eq_true.mp hany with ⟨x, hx, hfx⟩
      have hpos :
          1 ≤ (colDefs.filter (fun kv => kv.2.primary_key)).length := by
        have hmem : x ∈ colDefs.filter (fun kv => kv.2.primary_key) :=
          List.mem_filter.mpr ⟨hx, hfx⟩
        exact List.length_pos.mpr (List.ne_nil_of_mem hmem)
      rw [hcd, hlenperm]
      exact (Nat.max_eq_right hpos).symm

/-- C3 witness: the amended statement's exactly-one-primary-key branch at a
concrete two-column class. -/
theorem C3_witness :
    wKlassTwo._pk_name = "a" ∧
    wKlassTwo._columns.map Prod.fst =
      (sortByPosition wDefsTwo).map Prod.fst :=
  (C3_primary_key_resolution "Foo" wDefsTwo Option.none wKlassTwo
      (by decide) (by decide) rfl).2.1 "a" (plainCol 0 true Option.none) rfl

/-- C5: the schema build fails — with an exception carrying the type name
and the offending storage field — if and only if two registered columns
resolve to the same `db_field`; the duplicate check is the builder's only
error path, and it runs at type-definition time (a class object exists only
on the `ok` branch, so no instance of a rejected type can be constructed). -/
theorem C5_duplicate_check (name : String)
    (colDefs : List (String × BaseColumn)) (db_name : Option String) :
    ((∃ e, ModelMetaClass_new name colDefs db_name = Except.error e) ↔
      ¬ ((registeredColumns colDefs).map
          (fun kv => kv.2.db_fieldD)).Nodup) ∧
    (∀ e, ModelMetaClass_new name colDefs db_name = Except.error e →
      e.typeName = name ∧
      2 ≤ ((registeredColumns colDefs).map
            (fun kv => kv.2.db_fieldD)).count e.dbField) := by
  rcases hdup : findDup (registeredColumns colDefs) [] with _ | f
  · have hok : ∀ e, ModelMetaClass_new name colDefs db_name ≠
        Except.error e := by
      intro e he
      rcases build_error_elim he with ⟨hd, -⟩
      rw [hdup] at hd
      cases hd
    have hnodup : ((registeredColumns colDefs).map
        (fun kv => kv.2.db_fieldD)).Nodup :=
      ((findDup_eq_none_iff _ _).mp hdup).1
    refine ⟨⟨?_, ?_⟩, ?_⟩
    · rintro ⟨e, he⟩
      exact absurd he (hok e)
    · intro hn
      exact absurd hnodup hn
    · intro e he
      exact absurd he (hok e)
  · have herr : ModelMetaClass_new name colDefs db_name =
        Except.error { typeName := name, dbField := f } := by
      rw [ModelMetaClass_new_eq_match,
        show findDup (transformColumns (columnDefs colDefs)) [] = some f
          from hdup]
    have hcount : 2 ≤ ((registeredColumns colDefs).map
        (fun kv => kv.2.db_fieldD)).count f := by
      rcases findDup_some _ _ _ hdup with ⟨hmem, -⟩ | hc
      · cases hmem
      · exact hc
    refine ⟨⟨?_, ?_⟩, ?_⟩
    · intro _ hn
      have := List.nodup_iff_count_le_one.mp hn f
      omega
    · intro _
      exact ⟨_, herr⟩
    · intro e he
      have hee := herr.symm.trans he
      injection hee with hee
      rw [← hee]
      exact ⟨rfl, hcount⟩

/-- Two columns explicitly sharing the storage name `z`. -/
def wDefsDup : List (String × BaseColumn) :=
  [("a", plainCol 0 true (some "z")), ("b", plainCol 1 false (some "z"))]

/-- C5 witness: building with two columns storage-named `z` raises an
exception naming the type `T2` and the field `z`. -/
theorem C5_witness :
    ({ typeName := "T2", dbField := "z" } : ModelException).typeName =
      "T2" ∧
    2 ≤ ((registeredColumns wDefsDup).map
          (fun kv => kv.2.db_fieldD)).count
        (({ typeName := "T2", dbField := "z" } : ModelException).dbField) :=
  (C5_duplicate_check "T2" wDefsDup Option.none).2
    { typeName := "T2", dbField := "z" } rfl

/-- C6: `save` reads `is_new = (pk is None)` from the *pre-validation*
state, then validates, then makes exactly one Manager save call with the
validated instance, and returns that instance. -/
theorem C6_save_order (k : Klass) (i : Instance) :
    (BaseModel_save k i).is_new =
      decide (getattrD i k._pk_name = PyVal.none) ∧
    ∀ i', BaseModel_validate k i = (Option.none, i') →
      (BaseModel_save k i).result = Except.ok i' ∧
      (BaseModel_save k i).finalState = i' ∧
      (BaseModel_save k i).managerCalls =
        [ManagerCall.saveInstance i'] := by
  constructor
  · rcases hv : BaseModel_validate k i with ⟨o, i2⟩
    cases o <;> simp [BaseModel_save, hv]
  · intro i' hv
    simp [BaseModel_save, hv]

/-- Class with no declared primary key: the synthesized `id` column's
validator assigns an identifier during validation. -/
def wKlassAutoId : Klass :=
  buildD (ModelMetaClass_new "C" [("t", plainCol 0 false Option.none)]
    Option.none)

def wInstAutoId : Instance := BaseModel_init wKlassAutoId []

def wPostAutoId : Instance :=
  (BaseModel_validate wKlassAutoId wInstAutoId).2

/-- C6 witness: on an instance whose `pk` is absent, `save` computes
`is_new = true` even though validation then assigns the primary key. -/
theorem C6_witness :
    (BaseModel_save wKlassAutoId wInstAutoId).is_new = true ∧
    getattrD (BaseModel_save wKlassAutoId wInstAutoId).finalState "id" =
      PyVal.uuid 0 ∧
    (BaseModel_save wKlassAutoId wInstAutoId).result =
      Except.ok wPostAutoId ∧
    (BaseModel_save wKlassAutoId wInstAutoId).managerCalls =
      [ManagerCall.saveInstance wPostAutoId] := by
  have h := C6_save_order wKlassAutoId wInstAutoId
  exact ⟨h.1.trans rfl, rfl, (h.2 wPostAutoId rfl).1,
    (h.2 wPostAutoId rfl).2.2⟩

/-- C7: when a column's validator raises during `validate()` (alone or
inside `save()`), the failure propagates to the caller; the columns before
the failing one keep their post-validation values, the failing column and
everything after (and everything outside the validated prefix) keep their
pre-validation values, and the Manager's save operation is never called. -/
theorem C7_validation_abort (k : Klass) (i i' : Instance) (e : String)
    (hnodup : (k._columns.map Prod.fst).Nodup)
    (hfail : BaseModel_validate k i = (some e, i')) :
    (∃ pre nj cj rest, k._columns = pre ++ (nj, cj) :: rest ∧
      (∀ m cm, (m, cm) ∈ pre →
        ∃ v, cm.validate (getattrD i m) = Except.ok v ∧
          getattrD i' m = v) ∧
      cj.validate (getattrD i nj) = Except.error e ∧
      (∀ m, m ∉ pre.map Prod.fst → getattrD i' m = getattrD i m)) ∧
    (BaseModel_save k i).result = Except.error e ∧
    (BaseModel_save k i).finalState = i' ∧
    (BaseModel_save k i).managerCalls = [] := by
  refine ⟨validateSteps_err k._columns i i' e hnodup hfail, ?_, ?_, ?_⟩ <;>
    simp [BaseModel_save, hfail]

/-- Class whose second column always fails validation. -/
def wKlassFail : Klass :=
  buildD (ModelMetaClass_new "F"
    [("a", plainCol 0 true Option.none), ("b", failCol 1)] Option.none)

def wInstFail : Instance :=
  BaseModel_init wKlassFail [("a", PyVal.int 5), ("b", PyVal.int 6)]

def wPostFail : Instance := (BaseModel_validate wKlassFail wInstFail).2

/-- C7 witness: the abort-semantics statement at a concrete class whose
column `b` rejects its value. -/
theorem C7_witness :
    (∃ pre nj cj rest, wKlassFail._columns = pre ++ (nj, cj) :: rest ∧
      (∀ m cm, (m, cm) ∈ pre →
        ∃ v, cm.validate (getattrD wInstFail m) = Except.ok v ∧
          getattrD wPostFail m = v) ∧
      cj.validate (getattrD wInstFail nj) = Except.error "invalid" ∧
      (∀ m, m ∉ pre.map Prod.fst →
        getattrD wPostFail m = getattrD wInstFail m)) ∧
    (BaseModel_save wKlassFail wInstFail).result =
      Except.error "invalid" ∧
    (BaseModel_save wKlassFail wInstFail).finalState = wPostFail ∧
    (BaseModel_save wKlassFail wInstFail).managerCalls = [] :=
  C7_validation_abort wKlassFail wInstFail wPostFail "invalid"
    (by decide) rfl

/-- C8: the schema's column order is the ascending stable sort of the
declarations by `position` (the synthesized identifier, if any, first):
the sorted sequence is a permutation of the declarations, pairwise ordered
by position, and position-ties keep their original relative order (the
per-position subsequences are untouched). -/
theorem C8_column_order (name : String)
    (colDefs : List (String × BaseColumn)) (db_name : Option String)
    (k : Klass)
    (h1 : (colDefs.map Prod.fst).Nodup)
    (h2 : colDefs.any (fun kv => kv.2.primary_key) = false →
      "id" ∉ colDefs.map Prod.fst)
    (hbuild : ModelMetaClass_new name colDefs db_name = Except.ok k) :
    k._columns.map Prod.fst =
      (if colDefs.any (fun kv => kv.2.primary_key) then [] else ["id"]) ++
        (sortByPosition colDefs).map Prod.fst ∧
    (sortByPosition colDefs).Perm colDefs ∧
    (sortByPosition colDefs).Pairwise
      (fun a b => a.2.position ≤ b.2.position) ∧
    ∀ p, (sortByPosition colDefs).filter (fun kv => kv.2.position == p) =
      colDefs.filter (fun kv => kv.2.position == p) := by
  rcases build_ok_elim hbuild with ⟨hcols, -, -, -, -, -⟩
  have hnodup := columnDefs_keys_nodup h1 h2
  refine ⟨?_, sortByPosition_perm colDefs, sortByPosition_pairwise colDefs,
    fun p => sortByPosition_filter_pos p colDefs⟩
  rw [hcols, registeredColumns_eq_map hnodup, columnDefs_eq_ite,
    columnDefs_any_pk]
  rcases hany : colDefs.any (fun kv => kv.2.primary_key) with _ | _ <;>
    simp [hany]

/-- Three columns with a position tie between `a` and `c`. -/
def wDefsTie : List (String × BaseColumn) :=
  [("a", plainCol 5 true Option.none), ("b", plainCol 3 false Option.none),
    ("c", plainCol 5 false Option.none)]

def wKlassTie : Klass := buildD (ModelMetaClass_new "T8" wDefsTie Option.none)

/-- C8 witness: with positions 5, 3, 5 the schema order is `b, a, c` — the
tied columns `a` and `c` keep their declaration order. -/
theorem C8_witness :
    (wKlassTie._columns.map Prod.fst =
      (if wDefsTie.any (fun kv => kv.2.primary_key) then [] else ["id"]) ++
        (sortByPosition wDefsTie).map Prod.fst ∧
    (sortByPosition wDefsTie).Perm wDefsTie ∧
    (sortByPosition wDefsTie).Pairwise
      (fun a b => a.2.position ≤ b.2.position) ∧
    ∀ p, (sortByPosition wDefsTie).filter (fun kv => kv.2.position == p) =
      wDefsTie.filter (fun kv => kv.2.position == p)) ∧
    wKlassTie._columns.map Prod.fst = ["b", "a", "c"] :=
  ⟨C8_column_order "T8" wDefsTie Option.none wKlassTie (by decide)
      (by decide) rfl, rfl⟩

end CqlEngine
